import Mathlib

/-!
# Verification of the IMAP STORE handler (`helpers/imap/on-store.js`)

Shallow embedding of the flag-mutation engine: the per-message mutation
state machine (set / add / remove), the CONDSTORE `unchangedSince` guard,
the single-modseq-per-command concurrency rule, the mailbox flag-vocabulary
manager with its 100-entry capacity check, and the lock acquire/release
control flow of the handler.
-/

namespace OnStore

/-- `getFlag` from on-store.js: `f.trim().toLowerCase()`, written over the
character list so that it evaluates by kernel reduction. -/
def getFlag (f : String) : String :=
  String.mk (((f.data.dropWhile Char.isWhitespace).reverse.dropWhile
    Char.isWhitespace).reverse.map Char.toLower)

/-- JavaScript `[...new Set(xs)]`: deduplicate keeping the first occurrence,
preserving order. -/
def jsDedup : List String → List String
  | [] => []
  | x :: xs => x :: (jsDedup xs).filter (fun y => y ≠ x)

/-- The five IMAP system flags (`imapTools.systemFlags` in wildduck's
imap-core library, an external dependency of on-store.js). -/
def systemFlags : List String :=
  ["\\Answered", "\\Flagged", "\\Draft", "\\Deleted", "\\Seen"]

/-- A mailbox row, projected to the fields STORE touches. -/
structure Mailbox where
  _id : Nat
  modifyIndex : Nat
  flags : List String
  specialUse : String
  deriving Repr, DecidableEq

/-- A message row, projected to the fields STORE reads and writes
(`_id`, `uid`, `flags`, `modseq` are fetched; the derived booleans and
`searchable` are written through `$set`). -/
structure Message where
  _id : Nat
  mailbox : Nat
  uid : Nat
  flags : List String
  modseq : Nat
  unseen : Bool
  flagged : Bool
  undeleted : Bool
  draft : Bool
  searchable : Bool
  deriving Repr, DecidableEq

/-- The three STORE actions.  (Any other action value in the source throws
`TypeError('Unknown action')`, a programming error outside the protocol.) -/
inductive StoreAction
  | set
  | add
  | remove
  deriving Repr, DecidableEq

/-- The mutation descriptor `update` passed to `onStore`.
`unchangedSince = 0` models the JavaScript falsy absence of the guard
(`if (update.unchangedSince && ...)`). -/
structure StoreUpdate where
  action : StoreAction
  value : List String
  messages : List Nat
  silent : Bool
  isUid : Bool
  unchangedSince : Nat
  deriving Repr, DecidableEq

/-- The `$set` modifier accumulated per message: only the fields present
are written to the row. -/
structure MsgSet where
  flags : Option (List String) := none
  unseen : Option Bool := none
  flagged : Option Bool := none
  undeleted : Option Bool := none
  draft : Option Bool := none
  searchable : Option Bool := none
  modseq : Option Nat := none
  deriving Repr, DecidableEq

/-- Apply a `$set` modifier to a message row. -/
def applySet (m : Message) (s : MsgSet) : Message :=
  { m with
    flags := s.flags.getD m.flags
    unseen := s.unseen.getD m.unseen
    flagged := s.flagged.getD m.flagged
    undeleted := s.undeleted.getD m.undeleted
    draft := s.draft.getD m.draft
    searchable := s.searchable.getD m.searchable
    modseq := s.modseq.getD m.modseq }

/-- Lower-cased existing flag list: `message.flags.map((f) => getFlag(f))`
(the JS `Set` built from it is used only for `has` and `size`). -/
def existLC (m : Message) : List String :=
  m.flags.map getFlag

/-- Result of the per-message switch on `update.action`: `none` when
`updated` stayed falsy (the `if (!updated) continue` path), otherwise the
new in-memory `message.flags` together with the `$set` modifier. -/
def stepAction (mb : Mailbox) (u : StoreUpdate) (m : Message) :
    Option (List String × MsgSet) :=
  match u.action with
  | .set =>
    -- operation is only an update if flags are different
    let updated : Bool :=
      (existLC m).dedup.length ≠ u.value.length ||
        u.value.any (fun f => !(existLC m).contains (getFlag f))
    let newFlags := jsDedup u.value
    if updated then
      some (newFlags,
        { flags := some newFlags
          unseen := some (!newFlags.contains "\\Seen")
          flagged := some (newFlags.contains "\\Flagged")
          undeleted := some (!newFlags.contains "\\Deleted")
          draft := some (newFlags.contains "\\Draft")
          searchable := some (!newFlags.contains "\\Deleted") })
    else none
  | .add =>
    let added := u.value.filter (fun f => !(existLC m).contains (getFlag f))
    let newFlags := jsDedup (m.flags ++ added)
    if added.isEmpty then none
    else
      some (newFlags,
        { flags := some newFlags
          unseen := if added.contains "\\Seen" then some false else none
          flagged := if added.contains "\\Flagged" then some true else none
          undeleted := if added.contains "\\Deleted" then some false else none
          draft := if added.contains "\\Draft" then some true else none
          searchable := if added.contains "\\Deleted" then some false else none })
  | .remove =>
    let flagUpdates := u.value.map getFlag
    let oldFlags := m.flags.filter (fun f => flagUpdates.contains (getFlag f))
    let newFlags := jsDedup
      (m.flags.filter (fun f => !flagUpdates.contains (getFlag f)))
    if oldFlags.isEmpty then none
    else
      some (newFlags,
        { flags := some newFlags
          unseen := if oldFlags.contains "\\Seen" then some true else none
          flagged := if oldFlags.contains "\\Flagged" then some false else none
          undeleted := if oldFlags.contains "\\Deleted" then some true else none
          draft := if oldFlags.contains "\\Draft" then some false else none
          searchable :=
            if oldFlags.contains "\\Deleted" then
              if ["\\Junk", "\\Trash"].contains mb.specialUse then none
              else some true
            else none })

/-- Per-command context derived from `update` and `session.selected`:
`queryAll` is set when `update.messages.length === session.selected.uidList.length`
(the `1:*` shorthand), `uidList` is the session's known UID list, and
`condstoreEnabled = Boolean(session.selected.condstoreEnabled)`. -/
structure Ctx where
  update : StoreUpdate
  queryAll : Bool
  uidList : List Nat
  condstoreEnabled : Bool
  deriving Repr, DecidableEq

/-- The control-flow outcome of the per-message loop body before any write:
skipped by the `queryAll` staleness filter, skipped by the `unchangedSince`
guard (UID pushed onto `modified`), `updated` falsy (`continue`), or a write
carrying the new in-memory flag list and the `$set` modifier. -/
inductive StoreStep
  | skipAll
  | conflict
  | noUpdate
  | write (newFlags : List String) (set : MsgSet)
  deriving Repr, DecidableEq

/-- One iteration of the loop over fetched messages, up to the write:
the `queryAll`/`uidList` skip, then the `unchangedSince` guard
(`if (update.unchangedSince && message.modseq > update.unchangedSince)`),
then the action switch. -/
def processMessage (mb : Mailbox) (c : Ctx) (m : Message) : StoreStep :=
  if c.queryAll && !c.uidList.contains m.uid then .skipAll
  else if c.update.unchangedSince ≠ 0 ∧ m.modseq > c.update.unchangedSince then
    .conflict
  else
    match stepAction mb c.update m with
    | none => .noUpdate
    | some (nf, st) => .write nf st

/-- One element of the `writeStream` pushed to the socket: the FETCH
response for a mutated message.  `resUid` is `update.isUid ? message.uid : false`
and `modseq` is `condstoreEnabled ? newModseq : false`. -/
structure WSEntry where
  uid : Nat
  resUid : Option Nat
  flags : List String
  modseq : Option Nat
  deriving Repr, DecidableEq

/-- One notifier journal entry (`entries.push({...})`). -/
structure ChangeEntry where
  uid : Nat
  flags : List String
  message : Nat
  modseq : Nat
  deriving Repr, DecidableEq

/-- Accumulator of the transaction loop: the current message rows of the
store, the lazily allocated `newModseq`, and the three output lists. -/
structure TxAcc where
  rows : List Message
  newModseq : Option Nat
  modified : List Nat
  writeStream : List WSEntry
  entries : List ChangeEntry
  deriving Repr, DecidableEq

/-- The condition of the per-message UPDATE: `_id`, `mailbox` and `uid`
must match and the stored `modseq` must still be below the new one
(`modseq: { $lt: newModseq }`). -/
def writeCond (mb : Mailbox) (m : Message) (n : Nat) (row : Message) : Prop :=
  row._id = m._id ∧ row.mailbox = mb._id ∧ row.uid = m.uid ∧ row.modseq < n

instance (mb : Mailbox) (m : Message) (n : Nat) (row : Message) :
    Decidable (writeCond mb m n row) :=
  inferInstanceAs (Decidable
    (row._id = m._id ∧ row.mailbox = mb._id ∧ row.uid = m.uid ∧ row.modseq < n))

/-- One iteration of the transaction loop over the fetched messages. -/
def txStep (mb : Mailbox) (c : Ctx) (acc : TxAcc) (m : Message) : TxAcc :=
  match processMessage mb c m with
  | .skipAll => acc
  | .conflict => { acc with modified := acc.modified ++ [m.uid] }
  | .noUpdate => acc
  | .write nf st =>
    let n := acc.newModseq.getD (mb.modifyIndex + 1)
    let ws :=
      if !c.update.silent || c.condstoreEnabled then
        acc.writeStream ++
          [{ uid := m.uid
             resUid := if c.update.isUid then some m.uid else none
             flags := nf
             modseq := if c.condstoreEnabled then some n else none }]
      else acc.writeStream
    { rows := acc.rows.map fun row =>
        if writeCond mb m n row then applySet row { st with modseq := some n }
        else row
      newModseq := some n
      modified := acc.modified
      writeStream := ws
      entries := acc.entries ++
        [{ uid := m.uid, flags := nf, message := m._id, modseq := n }] }

/-- The mailbox flag vocabulary used by the capacity check:
`[...imapTools.systemFlags, ...(mailbox.flags || [])].map((f) => getFlag(f))`. -/
def vocabLC (mb : Mailbox) : List String :=
  (systemFlags ++ mb.flags).map getFlag

/-- The vocabulary loop (`for (const flag of update.value)`): before each
input flag, throw if `mailboxFlags.length + newFlags.length >= 100`; then
push the flag onto `newFlags` when the mailbox vocabulary does not contain
it case-insensitively. -/
def vocabLoop (mbLC : List String) (acc : List String) :
    List String → Except Unit (List String)
  | [] => .ok acc
  | f :: rest =>
    if mbLC.length + acc.length ≥ 100 then .error ()
    else if !mbLC.contains (getFlag f) then vocabLoop mbLC (acc ++ [f]) rest
    else vocabLoop mbLC acc rest

/-- The backing store visible to one STORE command: the mailbox row and the
message rows. -/
structure StoreState where
  mailbox : Mailbox
  messages : List Message
  deriving Repr, DecidableEq

/-- The candidate SELECT (`builder.build({type: 'select', ...})` at line 119):
rows of this mailbox, filtered by UID membership unless `queryAll`
(the range filter `tools.checkRangeQuery(update.messages)` on an explicit
UID list is membership in that list). -/
def queryRows (s : StoreState) (c : Ctx) : List Message :=
  s.messages.filter fun m =>
    m.mailbox == s.mailbox._id &&
      (c.queryAll || c.update.messages.contains m.uid)

/-- What a successful command hands back: the committed state, the
`modified` UID list, the `writeStream` responses and the notifier entries. -/
structure StoreResult where
  state : StoreState
  modified : List Nat
  writeStream : List WSEntry
  entries : List ChangeEntry
  deriving Repr, DecidableEq

/-- The transaction loop over the fetched candidate rows, starting from the
full row list and no allocated modseq. -/
def txAcc (s : StoreState) (c : Ctx) : TxAcc :=
  (queryRows s c).foldl (txStep s.mailbox c) ⟨s.messages, none, [], [], []⟩

/-- The vocabulary manager: skipped entirely for the `remove` action
(`if (update.action !== 'remove')`), otherwise the capacity-checked scan of
`update.value` against the system + custom vocabulary. -/
def vocabNew (s : StoreState) (c : Ctx) : Except Unit (List String) :=
  if c.update.action ≠ .remove then
    vocabLoop (vocabLC s.mailbox) [] c.update.value
  else .ok []

/-- The mailbox row UPDATE (`if (newModseq || newFlags.length > 0)`):
`$set.modifyIndex` only when a modseq was allocated, `$set.flags` only when
new vocabulary flags exist (`mailbox.flags.push(...newFlags)` followed by
exact deduplication). -/
def mailboxAfter (mb : Mailbox) (newModseq : Option Nat)
    (newFlags : List String) : Mailbox :=
  if newModseq.isSome || !newFlags.isEmpty then
    { mb with
      modifyIndex := newModseq.getD mb.modifyIndex
      flags :=
        if newFlags.isEmpty then mb.flags
        else jsDedup (mb.flags ++ newFlags) }
  else mb

/-- The whole mutation: the `messages.length > 0` guard, the transaction
loop, the vocabulary manager, and the mailbox row UPDATE.  `Except.error`
models the transaction body throwing, which rolls every write back. -/
def storeTx (s : StoreState) (c : Ctx) : Except Unit StoreResult :=
  if (queryRows s c).isEmpty then .ok ⟨s, [], [], []⟩
  else
    match vocabNew s c with
    | .error e => .error e
    | .ok newFlags =>
      .ok ⟨⟨mailboxAfter s.mailbox (txAcc s c).newModseq newFlags,
          (txAcc s c).rows⟩,
        (txAcc s c).modified, (txAcc s c).writeStream, (txAcc s c).entries⟩

/-- Commit semantics of `session.db.transaction(...)()`: a throw inside the
body rolls back every write, leaving the store unchanged. -/
def commitState (s : StoreState) : Except Unit StoreResult → StoreState
  | .error _ => s
  | .ok r => r.state

/-- The notifier is invoked only under `if (entries.length > 0)`. -/
def notifierFired (r : StoreResult) : Bool :=
  !r.entries.isEmpty

/-- The invariant tying the four derived booleans to the flag list
(spec §3: `unseen == !flags.contains(Seen)` etc., matching the exact
`includes` checks of the source). -/
def consistentFlags (m : Message) : Prop :=
  m.unseen = !m.flags.contains "\\Seen" ∧
    m.flagged = m.flags.contains "\\Flagged" ∧
      m.undeleted = !m.flags.contains "\\Deleted" ∧
        m.draft = m.flags.contains "\\Draft"

instance (m : Message) : Decidable (consistentFlags m) :=
  inferInstanceAs (Decidable
    (m.unseen = !m.flags.contains "\\Seen" ∧
      m.flagged = m.flags.contains "\\Flagged" ∧
        m.undeleted = !m.flags.contains "\\Deleted" ∧
          m.draft = m.flags.contains "\\Draft"))

/-- Count of input flags that are new to the mailbox vocabulary,
case-insensitively. -/
def newCount (mb : Mailbox) (l : List String) : Nat :=
  (l.filter fun f => !(vocabLC mb).contains (getFlag f)).length

/-- Which failure, if any, each collaborator of one local `onStore` run
produces: the session refresh, the mailbox lookup, building and running
the candidate SELECT, and the transaction body. -/
structure FlowInput where
  refreshOk : Bool
  mailboxExists : Bool
  queryOk : Bool
  txOk : Bool
  deriving Repr, DecidableEq

/-- What one local run did with the lock and how it ended. -/
structure FlowTrace where
  lockAcquired : Bool
  lockReleased : Bool
  success : Bool
  deriving Repr, DecidableEq

/-- Control flow of the local path of `onStore` (lines 66-436): refresh the
session, acquire the lock, look the mailbox up (`throw new IMAPError` when
absent), build and run the candidate query, then run the transaction with
its error captured into `err`; `releaseLock` is called only after the inner
`try/catch` around the transaction, so a throw between `acquireLock` and
that block propagates to the outer `catch` without releasing. -/
def onStoreFlow (i : FlowInput) : FlowTrace :=
  if !i.refreshOk then ⟨false, false, false⟩
  else if !i.mailboxExists then ⟨true, false, false⟩
  else if !i.queryOk then ⟨true, false, false⟩
  else ⟨true, true, i.txOk⟩

/-! ## Concrete fixtures used to instantiate the theorems -/

/-- A plain mailbox: id 1, modifyIndex 10, no custom flags, no special use. -/
def exMailbox : Mailbox :=
  ⟨1, 10, [], ""⟩

/-- A flagless message of that mailbox, with booleans consistent with its
empty flag list. -/
def exMessage : Message :=
  ⟨10, 1, 7, [], 5, true, false, true, false, true⟩

/-- Store holding the one message above. -/
def exState : StoreState :=
  ⟨exMailbox, [exMessage]⟩

/-- UID STORE +FLAGS (\Seen) on message 7, no guard, not silent. -/
def exAddSeen : StoreUpdate :=
  ⟨.add, ["\\Seen"], [7], false, true, 0⟩

/-- Session context for the command above: explicit UID set, CONDSTORE off. -/
def exCtx : Ctx :=
  ⟨exAddSeen, false, [7], false⟩

/-- Same add command guarded by unchangedSince 3 (the message's modseq 5
exceeds it). -/
def exCtxGuard : Ctx :=
  ⟨⟨.add, ["\\Seen"], [7], false, true, 3⟩, false, [7], false⟩

/-- Add of a brand-new custom flag addressed at UID 99, which matches no
message of `exState`. -/
def exCtxZeta : Ctx :=
  ⟨⟨.add, ["zeta"], [99], false, true, 0⟩, false, [7], false⟩

/-- A Trash special-use mailbox. -/
def exTrashMailbox : Mailbox :=
  ⟨2, 10, [], "\\Trash"⟩

/-- A message marked \Deleted (hence unsearchable and not undeleted). -/
def exDeletedMsg : Message :=
  ⟨11, 2, 8, ["\\Deleted"], 5, true, false, false, false, false⟩

/-- STORE -FLAGS (\Deleted) on that message. -/
def exRemoveDeleted : StoreUpdate :=
  ⟨.remove, ["\\Deleted"], [8], false, true, 0⟩

/-- A message whose only flag is \Seen, booleans consistent. -/
def exSeenMsg : Message :=
  ⟨10, 1, 7, ["\\Seen"], 5, false, false, true, false, true⟩

/-- STORE FLAGS (\Seen \Seen): the input list repeats the existing flag. -/
def exSetDup : StoreUpdate :=
  ⟨.set, ["\\Seen", "\\Seen"], [7], false, true, 0⟩

/-- A message already carrying the custom flag "zeta" (consistent booleans),
in a mailbox whose vocabulary does not know "zeta" yet. -/
def exZetaMsg : Message :=
  ⟨10, 1, 7, ["zeta"], 5, true, false, true, false, true⟩

/-- Store pairing the plain mailbox with the "zeta"-flagged message. -/
def exZetaState : StoreState :=
  ⟨exMailbox, [exZetaMsg]⟩

/-- STORE FLAGS (\Seen): replace with exactly the current flag list. -/
def exSetSame : StoreUpdate :=
  ⟨.set, ["\\Seen"], [7], false, true, 0⟩

/-- A mailbox carrying 95 custom flags (so 100 together with the 5 system
flags). -/
def exBigMailbox : Mailbox :=
  ⟨1, 10, (List.range 95).map (fun i => "c" ++ toString i), ""⟩

/-- Store pairing the 95-custom-flag mailbox with the flagless message. -/
def exBigState : StoreState :=
  ⟨exBigMailbox, [exMessage]⟩

/-- Add of one brand-new custom flag addressed at the message that exists. -/
def exCtxNew : Ctx :=
  ⟨⟨.add, ["zeta"], [7], false, true, 0⟩, false, [7], false⟩

/-! ## Basic lemmas about the embedded operations -/

theorem mem_jsDedup {a : String} : ∀ {l : List String}, a ∈ jsDedup l ↔ a ∈ l := by
  intro l
  induction l with
  | nil => simp [jsDedup]
  | cons x xs ih =>
    simp only [jsDedup, List.mem_cons, List.mem_filter, ih, decide_eq_true_eq]
    constructor
    · rintro (rfl | ⟨h, _⟩)
      · exact Or.inl rfl
      · exact Or.inr h
    · rintro (rfl | h)
      · exact Or.inl rfl
      · by_cases hx : a = x
        · exact Or.inl hx
        · exact Or.inr ⟨h, hx⟩

theorem vocabLoop_ok_eq {mbLC acc res : List String} :
    ∀ {l : List String}, vocabLoop mbLC acc l = .ok res →
      res = acc ++ l.filter (fun f => !mbLC.contains (getFlag f)) := by
  intro l
  induction l generalizing acc with
  | nil => intro h; simpa [vocabLoop] using h.symm
  | cons f rest ih =>
    intro h
    unfold vocabLoop at h
    split at h
    · exact absurd h (by simp)
    · split at h
      · rename_i hcap hnew
        rw [ih h]
        have hm : getFlag f ∉ mbLC := by simpa using hnew
        simp [List.filter_cons, hm]
      · rename_i hcap hnew
        rw [ih h]
        have hm : getFlag f ∈ mbLC := by simpa using hnew
        simp [List.filter_cons, hm]

theorem vocabLoop_error_iff {mbLC : List String} :
    ∀ {l acc : List String}, vocabLoop mbLC acc l = .error () ↔
      ∃ i < l.length, mbLC.length + acc.length +
        ((l.take i).filter (fun f => !mbLC.contains (getFlag f))).length ≥ 100 := by
  intro l
  induction l with
  | nil => intro acc; simp [vocabLoop]
  | cons f rest ih =>
    intro acc
    unfold vocabLoop
    split
    · rename_i hcap
      constructor
      · intro _
        exact ⟨0, by simp, by simpa using hcap⟩
      · intro _
        rfl
    · rename_i hcap
      push_neg at hcap
      split
      · rename_i hnew
        rw [ih]
        constructor
        · rintro ⟨i, hi, hge⟩
          refine ⟨i + 1, by simpa using Nat.succ_lt_succ hi, ?_⟩
          rw [List.take_succ_cons, @List.filter_cons_of_pos String (fun g => !mbLC.contains (getFlag g)) f (List.take i rest) hnew, List.length_cons]
          simp only [List.length_append, List.length_cons, List.length_nil] at hge
          omega
        · rintro ⟨i, hi, hge⟩
          match i with
          | 0 =>
            simp only [List.take_zero, List.filter_nil, List.length_nil] at hge
            omega
          | i + 1 =>
            refine ⟨i, by simpa using Nat.lt_of_succ_lt_succ hi, ?_⟩
            rw [List.take_succ_cons, @List.filter_cons_of_pos String (fun g => !mbLC.contains (getFlag g)) f (List.take i rest) hnew,
              List.length_cons] at hge
            simp only [List.length_append, List.length_cons, List.length_nil]
            omega
      · rename_i hnew
        rw [ih]
        have hneg : ¬((fun g => !mbLC.contains (getFlag g)) f = true) := by
          simp only [hnew]; exact Bool.false_ne_true
        constructor
        · rintro ⟨i, hi, hge⟩
          refine ⟨i + 1, by simpa using Nat.succ_lt_succ hi, ?_⟩
          rw [List.take_succ_cons, @List.filter_cons_of_neg String (fun g => !mbLC.contains (getFlag g)) f (List.take i rest) hneg]
          exact hge
        · rintro ⟨i, hi, hge⟩
          match i with
          | 0 =>
            simp only [List.take_zero, List.filter_nil, List.length_nil] at hge
            omega
          | i + 1 =>
            refine ⟨i, by simpa using Nat.lt_of_succ_lt_succ hi, ?_⟩
            rw [List.take_succ_cons, @List.filter_cons_of_neg String (fun g => !mbLC.contains (getFlag g)) f (List.take i rest) hneg] at hge
            exact hge

theorem contains_eq_decide (l : List String) (a : String) :
    l.contains a = decide (a ∈ l) :=
  List.elem_eq_mem a l

theorem contains_eq_of_mem_iff {a : String} {l l' : List String}
    (h : a ∈ l ↔ a ∈ l') : l.contains a = l'.contains a := by
  rw [contains_eq_decide, contains_eq_decide]
  exact decide_eq_decide.mpr h

theorem contains_jsDedup (l : List String) (a : String) :
    (jsDedup l).contains a = l.contains a :=
  contains_eq_of_mem_iff mem_jsDedup

theorem contains_append (l₁ l₂ : List String) (a : String) :
    (l₁ ++ l₂).contains a = (l₁.contains a || l₂.contains a) := by
  by_cases h1 : a ∈ l₁ <;> by_cases h2 : a ∈ l₂ <;>
    simp [contains_eq_decide, List.mem_append, h1, h2]

theorem contains_jsDedup_append (l₁ l₂ : List String) (a : String) :
    (jsDedup (l₁ ++ l₂)).contains a = (l₁.contains a || l₂.contains a) := by
  rw [contains_jsDedup, contains_append]

theorem contains_filter (l : List String) (p : String → Bool) (a : String) :
    (l.filter p).contains a = (l.contains a && p a) := by
  simp only [contains_eq_decide, List.mem_filter]
  cases hp : p a
  · simp [hp]
  · simp [hp]

theorem consistent_stepAction {mb : Mailbox} {u : StoreUpdate} {m : Message}
    {nf : List String} {st : MsgSet} {n : Nat}
    (hc : consistentFlags m) (h : stepAction mb u m = some (nf, st)) :
    consistentFlags (applySet m { st with modseq := some n }) := by
  obtain ⟨h1, h2, h3, h4⟩ := hc
  cases hact : u.action with
  | set =>
    simp only [stepAction, hact] at h
    split at h
    · obtain ⟨rfl, rfl⟩ := (Prod.mk.injEq _ _ _ _).mp (Option.some.inj h)
      simp [consistentFlags, applySet]
    · exact absurd h (by simp)
  | add =>
    simp only [stepAction, hact] at h
    split at h
    · exact absurd h (by simp)
    · obtain ⟨rfl, rfl⟩ := (Prod.mk.injEq _ _ _ _).mp (Option.some.inj h)
      refine ⟨?_, ?_, ?_, ?_⟩ <;>
        simp only [applySet, Option.getD_some, Option.getD_none, contains_jsDedup_append]
      · cases hs : (List.filter (fun f => !(existLC m).contains (getFlag f))
            u.value).contains "\\Seen" <;>
          simp only [hs, h1] <;> simp
      · cases hs : (List.filter (fun f => !(existLC m).contains (getFlag f))
            u.value).contains "\\Flagged" <;>
          simp only [hs, h2] <;> simp
      · cases hs : (List.filter (fun f => !(existLC m).contains (getFlag f))
            u.value).contains "\\Deleted" <;>
          simp only [hs, h3] <;> simp
      · cases hs : (List.filter (fun f => !(existLC m).contains (getFlag f))
            u.value).contains "\\Draft" <;>
          simp only [hs, h4] <;> simp
  | remove =>
    simp only [stepAction, hact] at h
    split at h
    · exact absurd h (by simp)
    · obtain ⟨rfl, rfl⟩ := (Prod.mk.injEq _ _ _ _).mp (Option.some.inj h)
      refine ⟨?_, ?_, ?_, ?_⟩ <;>
        simp only [applySet, Option.getD_some, Option.getD_none, contains_jsDedup, contains_filter]
      · cases hm : m.flags.contains "\\Seen" <;>
          cases hu : (List.map getFlag u.value).contains (getFlag "\\Seen") <;>
          simp only [hm, hu, h1] <;> simp
      · cases hm : m.flags.contains "\\Flagged" <;>
          cases hu : (List.map getFlag u.value).contains (getFlag "\\Flagged") <;>
          simp only [hm, hu, h2] <;> simp
      · cases hm : m.flags.contains "\\Deleted" <;>
          cases hu : (List.map getFlag u.value).contains (getFlag "\\Deleted") <;>
          simp only [hm, hu, h3] <;> simp
      · cases hm : m.flags.contains "\\Draft" <;>
          cases hu : (List.map getFlag u.value).contains (getFlag "\\Draft") <;>
          simp only [hm, hu, h4] <;> simp

theorem processMessage_write {mb : Mailbox} {c : Ctx} {m : Message}
    {nf : List String} {st : MsgSet}
    (h : processMessage mb c m = .write nf st) :
    stepAction mb c.update m = some (nf, st) := by
  unfold processMessage at h
  split at h
  · contradiction
  split at h
  · contradiction
  cases hsa : stepAction mb c.update m with
  | none => rw [hsa] at h; contradiction
  | some p =>
    rw [hsa] at h
    cases p with
    | mk a b =>
      simp only [StoreStep.write.injEq] at h
      rw [h.1, h.2]

theorem txStep_invA {mb : Mailbox} {c : Ctx} {init : List Message}
    {acc : TxAcc} {m : Message}
    (h1 : acc.newModseq = none ∨ acc.newModseq = some (mb.modifyIndex + 1))
    (h2 : ∀ row ∈ acc.rows, row ∈ init ∨ row.modseq = mb.modifyIndex + 1)
    (h3 : ∀ e ∈ acc.entries, e.modseq = mb.modifyIndex + 1)
    (h4 : acc.newModseq = none → acc.rows = init) :
    ((txStep mb c acc m).newModseq = none ∨
      (txStep mb c acc m).newModseq = some (mb.modifyIndex + 1)) ∧
    (∀ row ∈ (txStep mb c acc m).rows,
      row ∈ init ∨ row.modseq = mb.modifyIndex + 1) ∧
    (∀ e ∈ (txStep mb c acc m).entries, e.modseq = mb.modifyIndex + 1) ∧
    ((txStep mb c acc m).newModseq = none → (txStep mb c acc m).rows = init) := by
  cases hp : processMessage mb c m with
  | skipAll => simp only [txStep, hp]; exact ⟨h1, h2, h3, h4⟩
  | conflict => simp only [txStep, hp]; exact ⟨h1, h2, h3, h4⟩
  | noUpdate => simp only [txStep, hp]; exact ⟨h1, h2, h3, h4⟩
  | write nf st =>
    have hn : acc.newModseq.getD (mb.modifyIndex + 1) = mb.modifyIndex + 1 := by
      rcases h1 with h | h <;> simp [h]
    refine ⟨?_, ?_, ?_, ?_⟩
    · right
      simp only [txStep, hp, hn]
    · intro row hrow
      simp only [txStep, hp] at hrow
      rw [List.mem_map] at hrow
      obtain ⟨row₀, h₀, rfl⟩ := hrow
      by_cases hcond :
          writeCond mb m (acc.newModseq.getD (mb.modifyIndex + 1)) row₀
      · right
        rw [hn] at hcond
        simp [hcond, applySet, hn]
      · rcases h2 row₀ h₀ with hin | hms
        · left; simpa [hcond] using hin
        · right; simpa [hcond] using hms
    · intro e he
      simp only [txStep, hp] at he
      rw [List.mem_append] at he
      rcases he with he | he
      · exact h3 e he
      · rw [List.mem_singleton] at he
        subst he
        simpa using hn
    · intro hnone
      simp only [txStep, hp] at hnone
      exact absurd hnone (by simp)

theorem txFold_invA {mb : Mailbox} {c : Ctx} {init : List Message} :
    ∀ {msgs : List Message} {acc : TxAcc},
      acc.newModseq = none ∨ acc.newModseq = some (mb.modifyIndex + 1) →
      (∀ row ∈ acc.rows, row ∈ init ∨ row.modseq = mb.modifyIndex + 1) →
      (∀ e ∈ acc.entries, e.modseq = mb.modifyIndex + 1) →
      (acc.newModseq = none → acc.rows = init) →
      ((msgs.foldl (txStep mb c) acc).newModseq = none ∨
        (msgs.foldl (txStep mb c) acc).newModseq = some (mb.modifyIndex + 1)) ∧
      (∀ row ∈ (msgs.foldl (txStep mb c) acc).rows,
        row ∈ init ∨ row.modseq = mb.modifyIndex + 1) ∧
      (∀ e ∈ (msgs.foldl (txStep mb c) acc).entries,
        e.modseq = mb.modifyIndex + 1) ∧
      ((msgs.foldl (txStep mb c) acc).newModseq = none →
        (msgs.foldl (txStep mb c) acc).rows = init) := by
  intro msgs
  induction msgs with
  | nil =>
    intro acc h1 h2 h3 h4
    exact ⟨h1, h2, h3, h4⟩
  | cons m rest ih =>
    intro acc h1 h2 h3 h4
    rw [List.foldl_cons]
    obtain ⟨g1, g2, g3, g4⟩ := txStep_invA h1 h2 h3 h4
    exact ih g1 g2 g3 g4

theorem storeTx_ok_cases {s : StoreState} {c : Ctx} {r : StoreResult}
    (h : storeTx s c = .ok r) :
    (queryRows s c = [] ∧ r = ⟨s, [], [], []⟩) ∨
    (queryRows s c ≠ [] ∧ ∃ newFlags, vocabNew s c = .ok newFlags ∧
      r = ⟨⟨mailboxAfter s.mailbox (txAcc s c).newModseq newFlags,
          (txAcc s c).rows⟩,
        (txAcc s c).modified, (txAcc s c).writeStream, (txAcc s c).entries⟩) := by
  unfold storeTx at h
  split at h
  · rename_i hemp
    left
    refine ⟨by simpa using hemp, ?_⟩
    exact (Option.some.inj (by simpa using h)).symm
  · rename_i hemp
    right
    refine ⟨by simpa using hemp, ?_⟩
    cases hv : vocabNew s c with
    | error e => rw [hv] at h; contradiction
    | ok newFlags =>
      rw [hv] at h
      exact ⟨newFlags, rfl, (Option.some.inj (by simpa using h)).symm⟩

/-- C2: every message mutated by one STORE invocation is stamped with the
single modification sequence number `modifyIndex + 1` read from the mailbox
at the start of the command; every issued change entry carries that same
number; and when any row changed, the mailbox's `modifyIndex` is set to
exactly that number in the same transaction. -/
theorem store_single_modseq {s : StoreState} {c : Ctx} {r : StoreResult}
    (h : storeTx s c = .ok r) :
    (∀ row ∈ r.state.messages, row ∉ s.messages →
      row.modseq = s.mailbox.modifyIndex + 1) ∧
    (∀ e ∈ r.entries, e.modseq = s.mailbox.modifyIndex + 1) ∧
    ((∃ row ∈ r.state.messages, row ∉ s.messages) →
      r.state.mailbox.modifyIndex = s.mailbox.modifyIndex + 1) := by
  rcases storeTx_ok_cases h with ⟨hq, rfl⟩ | ⟨hq, newFlags, hv, rfl⟩
  · refine ⟨?_, ?_, ?_⟩
    · intro row hrow hnot
      exact absurd hrow hnot
    · intro e he
      simp at he
    · rintro ⟨row, hrow, hnot⟩
      exact absurd hrow hnot
  · have inv := @txFold_invA s.mailbox c s.messages (queryRows s c)
      ⟨s.messages, none, [], [], []⟩ (Or.inl rfl)
      (fun row hr => Or.inl hr) (by simp) (fun _ => rfl)
    rw [show (queryRows s c).foldl (txStep s.mailbox c)
        ⟨s.messages, none, [], [], []⟩ = txAcc s c from rfl] at inv
    refine ⟨?_, ?_, ?_⟩
    · intro row hrow hnot
      rcases inv.2.1 row hrow with hin | hms
      · exact absurd hin hnot
      · exact hms
    · intro e he
      exact inv.2.2.1 e he
    · rintro ⟨row, hrow, hnot⟩
      have hne : (txAcc s c).newModseq ≠ none := by
        intro hnone
        rw [inv.2.2.2 hnone] at hrow
        exact hnot hrow
      rcases inv.1 with hcase | hcase
      · exact absurd hcase hne
      · simp [mailboxAfter, hcase]

/-- Witness instantiating C2 at the concrete one-message add command. -/
theorem store_single_modseq_witness :
    (∀ row ∈ ((storeTx exState exCtx).toOption.getD ⟨exState, [], [], []⟩).state.messages,
      row ∉ exState.messages → row.modseq = exState.mailbox.modifyIndex + 1) ∧
    (∀ e ∈ ((storeTx exState exCtx).toOption.getD ⟨exState, [], [], []⟩).entries,
      e.modseq = exState.mailbox.modifyIndex + 1) ∧
    ((∃ row ∈ ((storeTx exState exCtx).toOption.getD ⟨exState, [], [], []⟩).state.messages,
      row ∉ exState.messages) →
      ((storeTx exState exCtx).toOption.getD ⟨exState, [], [], []⟩).state.mailbox.modifyIndex =
        exState.mailbox.modifyIndex + 1) :=
  store_single_modseq (s := exState) (c := exCtx)
    (r := (storeTx exState exCtx).toOption.getD ⟨exState, [], [], []⟩) (by rfl)

theorem txStep_invB {mb : Mailbox} {c : Ctx} {init : List Message}
    {acc : TxAcc} {m : Message}
    (hnodup : (init.map Message._id).Nodup)
    (hm : m ∈ init)
    (hcons : ∀ x ∈ init, consistentFlags x)
    (h1 : acc.newModseq = none ∨ acc.newModseq = some (mb.modifyIndex + 1))
    (h2 : ∀ row ∈ acc.rows, consistentFlags row ∧
      (row ∈ init ∨ row.modseq = mb.modifyIndex + 1)) :
    ((txStep mb c acc m).newModseq = none ∨
      (txStep mb c acc m).newModseq = some (mb.modifyIndex + 1)) ∧
    ∀ row ∈ (txStep mb c acc m).rows, consistentFlags row ∧
      (row ∈ init ∨ row.modseq = mb.modifyIndex + 1) := by
  cases hp : processMessage mb c m with
  | skipAll => simp only [txStep, hp]; exact ⟨h1, h2⟩
  | conflict => simp only [txStep, hp]; exact ⟨h1, h2⟩
  | noUpdate => simp only [txStep, hp]; exact ⟨h1, h2⟩
  | write nf st =>
    have hn : acc.newModseq.getD (mb.modifyIndex + 1) = mb.modifyIndex + 1 := by
      rcases h1 with h | h <;> simp [h]
    constructor
    · right
      simp only [txStep, hp, hn]
    · intro row hrow
      simp only [txStep, hp] at hrow
      rw [List.mem_map] at hrow
      obtain ⟨row₀, h₀, rfl⟩ := hrow
      by_cases hcond :
          writeCond mb m (acc.newModseq.getD (mb.modifyIndex + 1)) row₀
      · have hrow0 : row₀ = m := by
          obtain ⟨hid, hmbx, huid, hlt⟩ := hcond
          rw [hn] at hlt
          rcases (h2 row₀ h₀).2 with hin | hms
          · exact List.inj_on_of_nodup_map hnodup hin hm hid
          · rw [hms] at hlt
            exact absurd hlt (lt_irrefl _)
        subst hrow0
        rw [if_pos hcond]
        refine ⟨?_, Or.inr ?_⟩
        · exact consistent_stepAction
            (n := acc.newModseq.getD (mb.modifyIndex + 1))
            (hcons row₀ hm) (processMessage_write hp)
        · simp [applySet, hn]
      · rw [if_neg hcond]
        exact h2 row₀ h₀

theorem txFold_invB {mb : Mailbox} {c : Ctx} {init : List Message}
    (hnodup : (init.map Message._id).Nodup)
    (hcons : ∀ x ∈ init, consistentFlags x) :
    ∀ {msgs : List Message} {acc : TxAcc},
      (∀ x ∈ msgs, x ∈ init) →
      acc.newModseq = none ∨ acc.newModseq = some (mb.modifyIndex + 1) →
      (∀ row ∈ acc.rows, consistentFlags row ∧
        (row ∈ init ∨ row.modseq = mb.modifyIndex + 1)) →
      ∀ row ∈ (msgs.foldl (txStep mb c) acc).rows, consistentFlags row := by
  intro msgs
  induction msgs with
  | nil =>
    intro acc _ _ h2 row hrow
    exact (h2 row hrow).1
  | cons m rest ih =>
    intro acc hsub h1 h2
    rw [List.foldl_cons]
    obtain ⟨g1, g2⟩ :=
      txStep_invB hnodup (hsub m (List.mem_cons_self m rest)) hcons h1 h2
    exact ih (fun x hx => hsub x (List.mem_cons_of_mem m hx)) g1 g2

/-- C1: after any STORE action, every message row in the committed store
has its four derived booleans (`unseen`, `flagged`, `undeleted`, `draft`)
consistent with its flag list, provided they were consistent beforehand —
the incremental recomputation of `add`/`remove` and the full recomputation
of `set` all preserve the invariant. -/
theorem store_flags_consistency {s : StoreState} {c : Ctx}
    (hnodup : (s.messages.map Message._id).Nodup)
    (hcons : ∀ m ∈ s.messages, consistentFlags m) :
    ∀ m' ∈ (commitState s (storeTx s c)).messages, consistentFlags m' := by
  cases hst : storeTx s c with
  | error e =>
    simpa [commitState] using hcons
  | ok r =>
    simp only [commitState]
    rcases storeTx_ok_cases hst with ⟨hq, rfl⟩ | ⟨hq, newFlags, hv, rfl⟩
    · exact hcons
    · intro m' hm'
      refine txFold_invB hnodup hcons
        (fun x hx => (List.mem_filter.mp hx).1) (Or.inl rfl)
        (fun row hrow => ⟨hcons row hrow, Or.inl hrow⟩) m' hm'

/-- Witness instantiating C1 at the concrete one-message add command. -/
theorem store_flags_consistency_witness :
    (∀ m ∈ exState.messages, consistentFlags m) ∧
    ∀ m' ∈ (commitState exState (storeTx exState exCtx)).messages,
      consistentFlags m' :=
  ⟨by decide, store_flags_consistency (by decide) (by decide)⟩

/-- C10: when the candidate query returns zero rows, no write of any kind
happens — the whole store (mailbox row included, even when the input holds
brand-new vocabulary flags) is unchanged, no modseq is allocated, the
notifier is not invoked, and the command succeeds with empty modified and
response lists. -/
theorem store_empty_query_no_writes {s : StoreState} {c : Ctx}
    (h : queryRows s c = []) :
    ∃ r, storeTx s c = .ok r ∧ r.state = s ∧ r.modified = [] ∧
      r.writeStream = [] ∧ r.entries = [] ∧ notifierFired r = false := by
  refine ⟨⟨s, [], [], []⟩, ?_, rfl, rfl, rfl, rfl, rfl⟩
  unfold storeTx
  rw [h]
  rfl

/-- Witness instantiating C10: an add of a brand-new flag addressed at a
UID that matches nothing. -/
theorem store_empty_query_no_writes_witness :
    queryRows exState exCtxZeta = [] ∧
    ∃ r, storeTx exState exCtxZeta = .ok r ∧ r.state = exState ∧
      r.modified = [] ∧ r.writeStream = [] ∧ r.entries = [] ∧
      notifierFired r = false :=
  ⟨by rfl, store_empty_query_no_writes (by rfl)⟩

/-- C8: a remove action that actually strips \Deleted from a message sets
`undeleted` back to true in every mailbox, but restores `searchable` only
when the mailbox's special use is not Junk or Trash; on a Junk/Trash
mailbox `searchable` is left as it was. -/
theorem remove_deleted_searchable {mb : Mailbox} {u : StoreUpdate}
    {m : Message} {n : Nat}
    (hact : u.action = .remove)
    (hdel : "\\Deleted" ∈ m.flags)
    (hval : getFlag "\\Deleted" ∈ u.value.map getFlag) :
    ∃ nf st, stepAction mb u m = some (nf, st) ∧
      (applySet m { st with modseq := some n }).undeleted = true ∧
      (applySet m { st with modseq := some n }).searchable =
        (if mb.specialUse ∈ ["\\Junk", "\\Trash"] then m.searchable
         else true) := by
  have hold : "\\Deleted" ∈
      m.flags.filter (fun f => (u.value.map getFlag).contains (getFlag f)) := by
    rw [List.mem_filter]
    exact ⟨hdel, by simpa [contains_eq_decide] using hval⟩
  have holdc : (m.flags.filter
      (fun f => (u.value.map getFlag).contains (getFlag f))).contains
        "\\Deleted" = true := by
    simpa [contains_eq_decide] using hold
  have hne : (m.flags.filter
      (fun f => (u.value.map getFlag).contains (getFlag f))).isEmpty = false := by
    rw [List.isEmpty_eq_false]
    exact List.ne_nil_of_mem hold
  have hstep : stepAction mb u m = some
      (jsDedup (m.flags.filter
          (fun f => !(u.value.map getFlag).contains (getFlag f))),
       { flags := some (jsDedup (m.flags.filter
           (fun f => !(u.value.map getFlag).contains (getFlag f))))
         unseen := if (m.flags.filter (fun f =>
             (u.value.map getFlag).contains (getFlag f))).contains "\\Seen"
           then some true else none
         flagged := if (m.flags.filter (fun f =>
             (u.value.map getFlag).contains (getFlag f))).contains "\\Flagged"
           then some false else none
         undeleted := if (m.flags.filter (fun f =>
             (u.value.map getFlag).contains (getFlag f))).contains "\\Deleted"
           then some true else none
         draft := if (m.flags.filter (fun f =>
             (u.value.map getFlag).contains (getFlag f))).contains "\\Draft"
           then some false else none
         searchable := if (m.flags.filter (fun f =>
             (u.value.map getFlag).contains (getFlag f))).contains "\\Deleted"
           then (if (["\\Junk", "\\Trash"] : List String).contains mb.specialUse
             then none else some true)
           else none
         modseq := none }) := by
    simp only [stepAction, hact, hne]
    rfl
  have hprop : "\\Deleted" ∈ m.flags ∧
      ∃ a ∈ u.value, getFlag a = getFlag "\\Deleted" := by
    simpa using hold
  refine ⟨_, _, hstep, ?_, ?_⟩
  · simp [applySet, hprop]
  · by_cases hsp : mb.specialUse ∈ ["\\Junk", "\\Trash"]
    · simp [applySet, hprop, hsp]
    · simp [applySet, hprop, hsp]

/-- Witness instantiating C8 on both a Trash mailbox (searchable kept
false) and a plain mailbox (searchable restored). -/
theorem remove_deleted_searchable_witness :
    (∃ nf st, stepAction exTrashMailbox exRemoveDeleted exDeletedMsg =
        some (nf, st) ∧
      (applySet exDeletedMsg { st with modseq := some 11 }).undeleted = true ∧
      (applySet exDeletedMsg { st with modseq := some 11 }).searchable =
        (if exTrashMailbox.specialUse ∈ ["\\Junk", "\\Trash"] then
          exDeletedMsg.searchable
         else true)) ∧
    (∃ nf st, stepAction exMailbox exRemoveDeleted exDeletedMsg =
        some (nf, st) ∧
      (applySet exDeletedMsg { st with modseq := some 11 }).undeleted = true ∧
      (applySet exDeletedMsg { st with modseq := some 11 }).searchable =
        (if exMailbox.specialUse ∈ ["\\Junk", "\\Trash"] then
          exDeletedMsg.searchable
         else true)) :=
  ⟨remove_deleted_searchable rfl (by decide) (by decide),
   remove_deleted_searchable rfl (by decide) (by decide)⟩

/-- C5 (code bug): when the mailbox lookup fails after the lock was
acquired, the thrown IMAPError jumps to the outer catch without passing
the releaseLock call, so the lock is acquired but never released; the same
happens when building or running the candidate query throws.  Only the
transaction-body error path and the success path release the lock. -/
theorem lock_leaked_on_missing_mailbox :
    (onStoreFlow ⟨true, false, true, true⟩).lockAcquired = true ∧
    (onStoreFlow ⟨true, false, true, true⟩).lockReleased = false ∧
    (onStoreFlow ⟨true, true, false, true⟩).lockAcquired = true ∧
    (onStoreFlow ⟨true, true, false, true⟩).lockReleased = false ∧
    (onStoreFlow ⟨true, true, true, false⟩).lockReleased = true ∧
    (onStoreFlow ⟨true, true, true, true⟩).lockReleased = true :=
  ⟨rfl, rfl, rfl, rfl, rfl, rfl⟩

theorem txFold_modified_mono {mb : Mailbox} {c : Ctx} :
    ∀ {msgs : List Message} {acc : TxAcc} {x : Nat}, x ∈ acc.modified →
      x ∈ (msgs.foldl (txStep mb c) acc).modified := by
  intro msgs
  induction msgs with
  | nil => intro acc x hx; exact hx
  | cons m rest ih =>
    intro acc x hx
    rw [List.foldl_cons]
    apply ih
    cases hp : processMessage mb c m <;> simp [txStep, hp, hx]

theorem txFold_conflict_modified {mb : Mailbox} {c : Ctx} :
    ∀ {msgs : List Message} {acc : TxAcc} {m : Message}, m ∈ msgs →
      processMessage mb c m = .conflict →
      m.uid ∈ (msgs.foldl (txStep mb c) acc).modified := by
  intro msgs
  induction msgs with
  | nil => intro acc m hm; cases hm
  | cons m₀ rest ih =>
    intro acc m hm hp
    rw [List.foldl_cons]
    rcases List.mem_cons.mp hm with rfl | hm'
    · apply txFold_modified_mono
      simp [txStep, hp]
    · exact ih hm' hp

theorem txFold_row_preserved {mb : Mailbox} {c : Ctx} :
    ∀ {msgs : List Message} {acc : TxAcc} {row : Message}, row ∈ acc.rows →
      (∀ m' ∈ msgs, m'._id = row._id →
        ∀ nf st, processMessage mb c m' ≠ .write nf st) →
      row ∈ (msgs.foldl (txStep mb c) acc).rows := by
  intro msgs
  induction msgs with
  | nil => intro acc row h _; exact h
  | cons m₀ rest ih =>
    intro acc row h₀ hno
    rw [List.foldl_cons]
    refine ih ?_ (fun m' hm' => hno m' (List.mem_cons_of_mem m₀ hm'))
    cases hp : processMessage mb c m₀ with
    | skipAll => simpa [txStep, hp] using h₀
    | conflict => simpa [txStep, hp] using h₀
    | noUpdate => simpa [txStep, hp] using h₀
    | write nf st =>
      by_cases hid : m₀._id = row._id
      · exact absurd hp (hno m₀ (List.mem_cons_self m₀ rest) hid nf st)
      · simp only [txStep, hp]
        rw [List.mem_map]
        refine ⟨row, h₀, ?_⟩
        rw [if_neg ?_]
        intro hcond
        exact hid hcond.1.symm

/-- C3 counterexample: with a guard of 0 the source's truthiness check
`update.unchangedSince &&` disables the guard entirely, so the message
with modseq 5 (greater than the guard 0) is mutated and does not appear in
the modified list, contradicting the claim for guard value 0. -/
theorem unchangedSince_zero_guard_ignored :
    exCtx.update.unchangedSince = 0 ∧
    exState.messages.map Message.modseq = [5] ∧
    exState.messages.map Message.flags = [[]] ∧
    ∃ r, storeTx exState exCtx = .ok r ∧ r.modified = [] ∧
      r.state.messages.map Message.flags = [["\\Seen"]] :=
  ⟨rfl, rfl, rfl,
   ⟨(storeTx exState exCtx).toOption.getD ⟨exState, [], [], []⟩,
    by rfl, rfl, rfl⟩⟩

/-- C3 (amended): for every nonzero unchangedSince guard, a candidate
message not discarded by the queryAll staleness filter whose modseq
exceeds the guard is left unchanged in the committed store and its UID is
reported in the modified list.  (A guard of 0 is treated as no guard by
the source's truthiness test.) -/
theorem unchangedSince_guard_skips {s : StoreState} {c : Ctx}
    {r : StoreResult} {m : Message}
    (hnodup : (s.messages.map Message._id).Nodup)
    (hok : storeTx s c = .ok r)
    (hm : m ∈ queryRows s c)
    (hqa : c.queryAll = true → m.uid ∈ c.uidList)
    (hg : c.update.unchangedSince ≠ 0)
    (hmod : m.modseq > c.update.unchangedSince) :
    m ∈ r.state.messages ∧ m.uid ∈ r.modified := by
  have hskip : (c.queryAll && !c.uidList.contains m.uid) = false := by
    cases hq : c.queryAll
    · simp
    · simp [contains_eq_decide, hqa hq]
  have hp : processMessage s.mailbox c m = .conflict := by
    simp [processMessage, hskip, hg, hmod]
    exact hqa
  rcases storeTx_ok_cases hok with ⟨hq, rfl⟩ | ⟨hq, newFlags, hv, rfl⟩
  · rw [hq] at hm
    cases hm
  · constructor
    · exact txFold_row_preserved (List.mem_filter.mp hm).1
        (fun m' hm' hid nf st hw => by
          have he : m' = m := List.inj_on_of_nodup_map hnodup
            (List.mem_filter.mp hm').1 (List.mem_filter.mp hm).1 hid
          rw [he, hp] at hw
          cases hw)
    · exact txFold_conflict_modified hm hp

/-- Witness instantiating the amended C3 at a guard of 3 against a message
with modseq 5. -/
theorem unchangedSince_guard_skips_witness :
    exMessage ∈
      ((storeTx exState exCtxGuard).toOption.getD
        ⟨exState, [], [], []⟩).state.messages ∧
    exMessage.uid ∈
      ((storeTx exState exCtxGuard).toOption.getD ⟨exState, [], [], []⟩).modified :=
  unchangedSince_guard_skips (s := exState) (c := exCtxGuard)
    (r := (storeTx exState exCtxGuard).toOption.getD ⟨exState, [], [], []⟩)
    (m := exMessage) (by decide) (by rfl) (by decide)
    (by decide) (by decide) (by decide)

/-- C6 counterexample: replacing the flags of a message currently holding
exactly (\Seen) with the input list (\Seen \Seen) yields updated = true —
the source compares the deduplicated existing set's size with the raw
input-list length — even though the resulting stored set equals the
existing one, so by the claim's iff no update should occur. -/
theorem set_duplicate_input_spurious_update :
    (stepAction exMailbox exSetDup exSeenMsg).isSome = true ∧
    (stepAction exMailbox exSetDup exSeenMsg).map Prod.fst =
      some exSeenMsg.flags :=
  ⟨rfl, rfl⟩

/-- C6 (amended): for the set action, updated is true iff the number of
case-insensitively distinct existing flags differs from the raw length of
the input list, or some input flag is absent case-insensitively from the
existing flags; the stored set is always the exact-deduplicated input; and
replacing with exactly the current flag list is a no-op whenever the
current flags carry no case-insensitive duplicates. -/
theorem set_updated_characterization {mb : Mailbox} {u : StoreUpdate}
    {m : Message} (hact : u.action = .set) :
    ((stepAction mb u m).isSome = true ↔
      ((existLC m).toFinset.card ≠ u.value.length ∨
        ∃ f ∈ u.value, getFlag f ∉ existLC m)) ∧
    (∀ nf st, stepAction mb u m = some (nf, st) → nf = jsDedup u.value) ∧
    ((existLC m).Nodup → u.value = m.flags → stepAction mb u m = none) := by
  have hcard : (existLC m).toFinset.card = (existLC m).dedup.length :=
    List.card_toFinset _
  refine ⟨?_, ?_, ?_⟩
  · simp only [stepAction, hact]
    split
    · rename_i hcond
      simp only [Option.isSome_some, true_iff]
      rw [Bool.or_eq_true] at hcond
      rcases hcond with hcond | hcond
      · left
        rw [hcard]
        simpa using hcond
      · right
        rw [List.any_eq_true] at hcond
        obtain ⟨f, hf, hpf⟩ := hcond
        refine ⟨f, hf, ?_⟩
        simpa [contains_eq_decide] using hpf
    · rename_i hcond
      simp only [Option.isSome_none, Bool.false_eq_true, false_iff]
      have hfalse : (decide ((existLC m).dedup.length ≠ u.value.length) ||
          u.value.any (fun f => !(existLC m).contains (getFlag f))) = false := by
        simpa using hcond
      rw [Bool.or_eq_false_iff] at hfalse
      rintro (hne | ⟨f, hf, hnf⟩)
      · rw [hcard] at hne
        exact hne (by simpa using hfalse.1)
      · have := List.any_eq_false.mp hfalse.2 f hf
        exact hnf (by simpa [contains_eq_decide] using this)
  · intro nf st h
    simp only [stepAction, hact] at h
    split at h
    · exact ((Prod.mk.injEq _ _ _ _).mp (Option.some.inj h)).1.symm
    · exact absurd h (by simp)
  · intro hnodup hval
    simp only [stepAction, hact]
    have h1 : decide ((existLC m).dedup.length ≠ u.value.length) = false := by
      rw [List.dedup_eq_self.mpr hnodup, hval]
      simp [existLC]
    have h2 : u.value.any (fun f => !(existLC m).contains (getFlag f)) = false := by
      rw [List.any_eq_false]
      intro f hf
      rw [hval] at hf
      have hmem : getFlag f ∈ List.map getFlag m.flags :=
        List.mem_map_of_mem getFlag hf
      simp [contains_eq_decide, existLC, hmem]
    rw [h1, h2]
    rfl

/-- Witness instantiating the amended C6: replacing with the exact current
flag list of a duplicate-free message is a no-op. -/
theorem set_updated_characterization_witness :
    (((stepAction exMailbox exSetSame exSeenMsg).isSome = true ↔
      ((existLC exSeenMsg).toFinset.card ≠ exSetSame.value.length ∨
        ∃ f ∈ exSetSame.value, getFlag f ∉ existLC exSeenMsg)) ∧
    (∀ nf st, stepAction exMailbox exSetSame exSeenMsg = some (nf, st) →
      nf = jsDedup exSetSame.value) ∧
    ((existLC exSeenMsg).Nodup → exSetSame.value = exSeenMsg.flags →
      stepAction exMailbox exSetSame exSeenMsg = none)) ∧
    stepAction exMailbox exSetSame exSeenMsg = none :=
  ⟨set_updated_characterization rfl,
   (@set_updated_characterization exMailbox exSetSame exSeenMsg rfl).2.2
      (by decide) rfl⟩

theorem txFold_nowrite {mb : Mailbox} {c : Ctx} :
    ∀ {msgs : List Message} {acc : TxAcc},
      (∀ m ∈ msgs, ∀ nf st, processMessage mb c m ≠ .write nf st) →
      (msgs.foldl (txStep mb c) acc).rows = acc.rows ∧
      (msgs.foldl (txStep mb c) acc).newModseq = acc.newModseq ∧
      (msgs.foldl (txStep mb c) acc).writeStream = acc.writeStream ∧
      (msgs.foldl (txStep mb c) acc).entries = acc.entries := by
  intro msgs
  induction msgs with
  | nil => intro acc _; exact ⟨rfl, rfl, rfl, rfl⟩
  | cons m₀ rest ih =>
    intro acc hno
    rw [List.foldl_cons]
    have hstep : ∀ p, p = txStep mb c acc m₀ →
        p.rows = acc.rows ∧ p.newModseq = acc.newModseq ∧
        p.writeStream = acc.writeStream ∧ p.entries = acc.entries := by
      intro p hp
      cases hpm : processMessage mb c m₀ with
      | skipAll => subst hp; simp [txStep, hpm]
      | conflict => subst hp; simp [txStep, hpm]
      | noUpdate => subst hp; simp [txStep, hpm]
      | write nf st =>
        exact absurd hpm (hno m₀ (List.mem_cons_self m₀ rest) nf st)
    obtain ⟨g1, g2, g3, g4⟩ := hstep _ rfl
    obtain ⟨k1, k2, k3, k4⟩ :=
      ih (fun m hm => hno m (List.mem_cons_of_mem m₀ hm))
    exact ⟨k1.trans g1, k2.trans g2, k3.trans g3, k4.trans g4⟩

/-- C9 counterexample: an add command whose candidate query matches no row
(so every candidate vacuously yields updated = false) and whose input
carries the brand-new flag "zeta" does not extend the mailbox vocabulary:
the `messages.length > 0` guard skips the whole transaction, vocabulary
manager included. -/
theorem vocab_not_extended_without_candidates :
    getFlag "zeta" ∉ vocabLC exMailbox ∧
    storeTx exState exCtxZeta = .ok ⟨exState, [], [], []⟩ ∧
    exState.mailbox.flags = [] :=
  ⟨by decide, by rfl, rfl⟩

/-- C9 (amended): for an add/set command with at least one candidate row,
all of which yield updated = false, that passes the capacity check, the
mailbox vocabulary is still extended with every input flag absent from it
case-insensitively, while modifyIndex stays unchanged, the message rows
stay unchanged, and no FETCH response and no change entry is produced (so
the notifier is not invoked). -/
theorem vocab_extended_when_no_rows_updated {s : StoreState} {c : Ctx}
    {r : StoreResult}
    (hact : c.update.action ≠ .remove)
    (hrows : queryRows s c ≠ [])
    (hnowrite : ∀ m ∈ queryRows s c, ∀ nf st,
      processMessage s.mailbox c m ≠ .write nf st)
    (hok : storeTx s c = .ok r) :
    r.state.messages = s.messages ∧
    r.state.mailbox.modifyIndex = s.mailbox.modifyIndex ∧
    r.writeStream = [] ∧ r.entries = [] ∧ notifierFired r = false ∧
    (∀ f ∈ c.update.value, getFlag f ∉ vocabLC s.mailbox →
      f ∈ r.state.mailbox.flags) := by
  rcases storeTx_ok_cases hok with ⟨hq, rfl⟩ | ⟨hq, newFlags, hv, rfl⟩
  · exact absurd hq hrows
  · obtain ⟨hr, hn, hw, he⟩ := @txFold_nowrite s.mailbox c (queryRows s c)
      ⟨s.messages, none, [], [], []⟩ hnowrite
    rw [show (queryRows s c).foldl (txStep s.mailbox c)
        ⟨s.messages, none, [], [], []⟩ = txAcc s c from rfl] at hr hn hw he
    refine ⟨hr, ?_, hw, he, by simp [notifierFired, he], ?_⟩
    · rw [hn]
      unfold mailboxAfter
      split <;> simp
    · intro f hf hnew
      unfold vocabNew at hv
      rw [if_pos hact] at hv
      have hnf : newFlags = c.update.value.filter
          (fun g => !(vocabLC s.mailbox).contains (getFlag g)) := by
        simpa using vocabLoop_ok_eq hv
      have hfmem : f ∈ newFlags := by
        rw [hnf, List.mem_filter]
        exact ⟨hf, by simpa [contains_eq_decide] using hnew⟩
      have hempty : newFlags.isEmpty = false := by
        rw [List.isEmpty_eq_false]
        exact List.ne_nil_of_mem hfmem
      show f ∈ (mailboxAfter s.mailbox (txAcc s c).newModseq newFlags).flags
      unfold mailboxAfter
      rw [hn]
      simp only [Option.isSome_none, hempty, Bool.not_false, Bool.or_true,
        if_true]
      rw [if_neg (by simp [hempty])]
      exact mem_jsDedup.mpr (List.mem_append_right _ hfmem)

/-- Witness instantiating the amended C9: adding "zeta" to a message that
already carries it extends the vocabulary without touching any row. -/
theorem vocab_extended_when_no_rows_updated_witness :
    (((storeTx exZetaState exCtxNew).toOption.getD
        ⟨exZetaState, [], [], []⟩).state.messages = exZetaState.messages ∧
      ((storeTx exZetaState exCtxNew).toOption.getD
        ⟨exZetaState, [], [], []⟩).state.mailbox.modifyIndex =
          exZetaState.mailbox.modifyIndex ∧
      ((storeTx exZetaState exCtxNew).toOption.getD
        ⟨exZetaState, [], [], []⟩).writeStream = [] ∧
      ((storeTx exZetaState exCtxNew).toOption.getD
        ⟨exZetaState, [], [], []⟩).entries = [] ∧
      notifierFired ((storeTx exZetaState exCtxNew).toOption.getD
        ⟨exZetaState, [], [], []⟩) = false ∧
      (∀ f ∈ exCtxNew.update.value,
        getFlag f ∉ vocabLC exZetaState.mailbox →
        f ∈ ((storeTx exZetaState exCtxNew).toOption.getD
          ⟨exZetaState, [], [], []⟩).state.mailbox.flags)) :=
  vocab_extended_when_no_rows_updated (s := exZetaState) (c := exCtxNew)
    (r := (storeTx exZetaState exCtxNew).toOption.getD ⟨exZetaState, [], [], []⟩)
    (by decide) (by decide)
    (by
      intro m hm nf st
      have hm' : m = exZetaMsg := by
        have := (by simpa [queryRows] using hm :
          m ∈ exZetaState.messages ∧ m.mailbox = exZetaState.mailbox._id ∧
            (exCtxNew.queryAll = true ∨ m.uid ∈ exCtxNew.update.messages))
        simpa [exZetaState] using this.1
      subst hm'
      rw [show processMessage exZetaState.mailbox exCtxNew exZetaMsg =
        .noUpdate from rfl]
      simp)
    (by rfl)

/-- C4 counterexample: with 95 custom flags and one brand-new input flag,
existingCustomFlags + newFlags = 96 < 100, so by the claim the capacity
check must not reject — yet the command fails with the capacity error,
because the source counts the 5 system flags inside `mailboxFlags.length`
and performs the check before examining each input flag. -/
theorem capacity_counts_system_flags :
    exBigMailbox.flags.length + newCount exBigMailbox ["zeta"] < 100 ∧
    storeTx exBigState exCtxNew = .error () :=
  ⟨by decide, by rfl⟩

/-- C4 (amended): for an add/set command with at least one candidate row,
the capacity check rejects the whole command iff at some point of the
input-flag scan 5 (system flags) + (existing custom flags) + (new flags so
far) reaches 100 with an input flag still to be processed; a rejected
transaction is rolled back, leaving every message row and the mailbox row
unchanged; a command for which the scan stays below the cap is not
rejected. -/
theorem capacity_check_threshold {s : StoreState} {c : Ctx}
    (hact : c.update.action ≠ .remove)
    (hrows : queryRows s c ≠ []) :
    (storeTx s c = .error () ↔
      ∃ i < c.update.value.length,
        5 + s.mailbox.flags.length +
          newCount s.mailbox (c.update.value.take i) ≥ 100) ∧
    (storeTx s c = .error () → commitState s (storeTx s c) = s) := by
  have hlen : (vocabLC s.mailbox).length = 5 + s.mailbox.flags.length := by
    simp [vocabLC, systemFlags]
    omega
  have hst : storeTx s c = .error () ↔
      vocabLoop (vocabLC s.mailbox) [] c.update.value = .error () := by
    unfold storeTx
    rw [if_neg (by simpa [List.isEmpty_iff] using hrows)]
    unfold vocabNew
    rw [if_pos hact]
    cases hv : vocabLoop (vocabLC s.mailbox) [] c.update.value with
    | error e => cases e; simp
    | ok nf => simp
  refine ⟨?_, ?_⟩
  · rw [hst, vocabLoop_error_iff]
    constructor
    · rintro ⟨i, hi, hge⟩
      refine ⟨i, hi, ?_⟩
      simpa [newCount, hlen] using hge
    · rintro ⟨i, hi, hge⟩
      refine ⟨i, hi, ?_⟩
      simpa [newCount, hlen] using hge
  · intro herr
    rw [herr]
    rfl

/-- Witness instantiating the amended C4 at a command that stays under the
cap (the iff holds with both sides false, and the rollback implication is
vacuous). -/
theorem capacity_check_threshold_witness :
    ((storeTx exState exCtx = .error () ↔
      ∃ i < exCtx.update.value.length,
        5 + exState.mailbox.flags.length +
          newCount exState.mailbox (exCtx.update.value.take i) ≥ 100) ∧
    (storeTx exState exCtx = .error () →
      commitState exState (storeTx exState exCtx) = exState)) :=
  capacity_check_threshold (by decide) (by decide)

theorem addStep_none {mb : Mailbox} {u : StoreUpdate} {m : Message}
    (hact : u.action = .add)
    (hcov : ∀ f ∈ u.value, getFlag f ∈ existLC m) :
    stepAction mb u m = none := by
  simp only [stepAction, hact]
  have hfil : u.value.filter (fun f => !(existLC m).contains (getFlag f)) = [] := by
    rw [List.filter_eq_nil_iff]
    intro f hf
    simp [contains_eq_decide, hcov f hf]
  rw [hfil]
  rfl

theorem addStep_covers {mb : Mailbox} {u : StoreUpdate} {m : Message}
    {nf : List String} {st : MsgSet} (hact : u.action = .add)
    (h : stepAction mb u m = some (nf, st)) :
    st.flags = some nf ∧ ∀ f ∈ u.value, getFlag f ∈ nf.map getFlag := by
  simp only [stepAction, hact] at h
  split at h
  · exact absurd h (by simp)
  · obtain ⟨rfl, rfl⟩ := (Prod.mk.injEq _ _ _ _).mp (Option.some.inj h)
    refine ⟨rfl, ?_⟩
    intro f hf
    by_cases hc : getFlag f ∈ existLC m
    · simp only [existLC] at hc
      obtain ⟨x, hx, hgx⟩ := List.mem_map.mp hc
      exact List.mem_map.mpr
        ⟨x, mem_jsDedup.mpr (List.mem_append_left _ hx), hgx⟩
    · refine List.mem_map.mpr ⟨f, ?_, rfl⟩
      refine mem_jsDedup.mpr (List.mem_append_right _ ?_)
      rw [List.mem_filter]
      exact ⟨hf, by simp [contains_eq_decide, hc]⟩

theorem processMessage_ne_write_of_none {mb : Mailbox} {c : Ctx} {m : Message}
    (h : stepAction mb c.update m = none) :
    ∀ nf st, processMessage mb c m ≠ .write nf st := by
  intro nf st hw
  unfold processMessage at hw
  split at hw
  · simp at hw
  split at hw
  · simp at hw
  rw [h] at hw
  simp at hw

theorem processMessage_add_mailbox_irrel {c : Ctx} {m : Message}
    (hact : c.update.action = .add) (mb₁ mb₂ : Mailbox) :
    processMessage mb₁ c m = processMessage mb₂ c m := by
  unfold processMessage stepAction
  rw [hact]

theorem mailboxAfter_id (mb : Mailbox) (nm : Option Nat) (nf : List String) :
    (mailboxAfter mb nm nf)._id = mb._id := by
  unfold mailboxAfter
  split <;> rfl

theorem txFold_invC7 {s : StoreState} {c : Ctx}
    (hact : c.update.action = .add)
    (hinv : ∀ m ∈ s.messages, m.modseq ≤ s.mailbox.modifyIndex) :
    ∀ {msgs : List Message} {acc : TxAcc},
      (∀ x ∈ msgs, x ∈ queryRows s c) →
      (acc.newModseq = none ∨
        acc.newModseq = some (s.mailbox.modifyIndex + 1)) →
      (∀ row ∈ acc.rows,
        (∀ f ∈ c.update.value, getFlag f ∈ existLC row) ∨
        (row ∈ s.messages ∧ (row ∈ queryRows s c → row ∈ msgs ∨
          ∀ nf st, processMessage s.mailbox c row ≠ .write nf st))) →
      ∀ row ∈ (msgs.foldl (txStep s.mailbox c) acc).rows,
        (∀ f ∈ c.update.value, getFlag f ∈ existLC row) ∨
        (row ∈ s.messages ∧ (row ∈ queryRows s c →
          ∀ nf st, processMessage s.mailbox c row ≠ .write nf st)) := by
  intro msgs
  induction msgs with
  | nil =>
    intro acc _ _ h2 row hrow
    rcases h2 row hrow with h | ⟨hin, himp⟩
    · exact Or.inl h
    · refine Or.inr ⟨hin, fun hq => ?_⟩
      rcases himp hq with h | h
      · cases h
      · exact h
  | cons m rest ih =>
    intro acc hsub h1 h2
    rw [List.foldl_cons]
    have h1' : (txStep s.mailbox c acc m).newModseq = none ∨
        (txStep s.mailbox c acc m).newModseq =
          some (s.mailbox.modifyIndex + 1) := by
      cases hp : processMessage s.mailbox c m <;>
        simp only [txStep, hp] <;>
        first
          | exact h1
          | (right; rcases h1 with h | h <;> simp [h])
    refine ih (fun x hx => hsub x (List.mem_cons_of_mem m hx)) h1' ?_
    intro row hrow
    cases hp : processMessage s.mailbox c m with
    | write nf st =>
      simp only [txStep, hp] at hrow
      rw [List.mem_map] at hrow
      obtain ⟨row₀, h₀, rfl⟩ := hrow
      have hneq : acc.newModseq.getD (s.mailbox.modifyIndex + 1) =
          s.mailbox.modifyIndex + 1 := by
        rcases h1 with h | h <;> simp [h]
      by_cases hcond : writeCond s.mailbox m
          (acc.newModseq.getD (s.mailbox.modifyIndex + 1)) row₀
      · rw [if_pos hcond]
        left
        obtain ⟨hstf, hcov⟩ := addStep_covers hact (processMessage_write hp)
        intro f hf
        simpa [applySet, existLC, hstf] using hcov f hf
      · rw [if_neg hcond]
        rcases h2 row₀ h₀ with h | ⟨hin, himp⟩
        · exact Or.inl h
        · refine Or.inr ⟨hin, fun hq => ?_⟩
          rcases himp hq with hmem | h
          · rcases List.mem_cons.mp hmem with hrfl | hmem'
            · exfalso
              subst hrfl
              apply hcond
              refine ⟨rfl, ?_, rfl, ?_⟩
              · have hbc := (List.mem_filter.mp hq).2
                simp only [Bool.and_eq_true, beq_iff_eq] at hbc
                exact hbc.1
              · rw [hneq]
                exact Nat.lt_succ_of_le (hinv _ hin)
            · exact Or.inl hmem'
          · exact Or.inr h
    | skipAll =>
      simp only [txStep, hp] at hrow
      rcases h2 row hrow with h | ⟨hin, himp⟩
      · exact Or.inl h
      · refine Or.inr ⟨hin, fun hq => ?_⟩
        rcases himp hq with hmem | h
        · rcases List.mem_cons.mp hmem with hrfl | hmem'
          · subst hrfl
            exact Or.inr (fun nf st hw => by rw [hp] at hw; cases hw)
          · exact Or.inl hmem'
        · exact Or.inr h
    | conflict =>
      simp only [txStep, hp] at hrow
      rcases h2 row hrow with h | ⟨hin, himp⟩
      · exact Or.inl h
      · refine Or.inr ⟨hin, fun hq => ?_⟩
        rcases himp hq with hmem | h
        · rcases List.mem_cons.mp hmem with hrfl | hmem'
          · subst hrfl
            exact Or.inr (fun nf st hw => by rw [hp] at hw; cases hw)
          · exact Or.inl hmem'
        · exact Or.inr h
    | noUpdate =>
      simp only [txStep, hp] at hrow
      rcases h2 row hrow with h | ⟨hin, himp⟩
      · exact Or.inl h
      · refine Or.inr ⟨hin, fun hq => ?_⟩
        rcases himp hq with hmem | h
        · rcases List.mem_cons.mp hmem with hrfl | hmem'
          · subst hrfl
            exact Or.inr (fun nf st hw => by rw [hp] at hw; cases hw)
          · exact Or.inl hmem'
        · exact Or.inr h

/-- C7: applying the same add command a second time, to the state the first
successful application committed, is a no-op for the messages: every
candidate of the second run fails to be a write step (updated stays
falsy or the row is skipped), the committed message rows are unchanged,
and the mailbox's modifyIndex is not bumped — no new modification sequence
number is allocated.  (The state invariant modseq ≤ modifyIndex expresses
that modseqs originate from the mailbox counter, per the data model.) -/
theorem add_idempotent_second_run {s : StoreState} {c : Ctx}
    {r : StoreResult}
    (hact : c.update.action = .add)
    (hinv : ∀ m ∈ s.messages, m.modseq ≤ s.mailbox.modifyIndex)
    (hok : storeTx s c = .ok r) :
    (∀ m ∈ queryRows r.state c, ∀ nf st,
      processMessage r.state.mailbox c m ≠ .write nf st) ∧
    (commitState r.state (storeTx r.state c)).messages = r.state.messages ∧
    (commitState r.state (storeTx r.state c)).mailbox.modifyIndex =
      r.state.mailbox.modifyIndex := by
  have hA : ∀ m ∈ queryRows r.state c, ∀ nf st,
      processMessage r.state.mailbox c m ≠ .write nf st := by
    rcases storeTx_ok_cases hok with ⟨hq, rfl⟩ | ⟨hq, newFlags, hv, rfl⟩
    · intro m hm
      rw [show (⟨s, [], [], []⟩ : StoreResult).state = s from rfl, hq] at hm
      cases hm
    · intro m' hm' nf st hw
      have hm'rows : m' ∈ (txAcc s c).rows := (List.mem_filter.mp hm').1
      have hfin := txFold_invC7 (s := s) hact hinv
        (fun x hx => hx) (Or.inl rfl)
        (fun row hrow => Or.inr ⟨hrow, fun hq' => Or.inl hq'⟩) m'
        (by
          rw [show (queryRows s c).foldl (txStep s.mailbox c)
            ⟨s.messages, none, [], [], []⟩ = txAcc s c from rfl]
          exact hm'rows)
      rcases hfin with hcov | ⟨hin, hnw⟩
      · exact processMessage_ne_write_of_none (addStep_none hact hcov)
          nf st hw
      · have hqs : m' ∈ queryRows s c := by
          rw [queryRows, List.mem_filter]
          refine ⟨hin, ?_⟩
          have hcond := (List.mem_filter.mp hm').2
          simpa [mailboxAfter_id] using hcond
        rw [processMessage_add_mailbox_irrel hact _ s.mailbox] at hw
        exact hnw hqs nf st hw
  refine ⟨hA, ?_⟩
  by_cases hq2 : queryRows r.state c = []
  · have hempty : storeTx r.state c = .ok ⟨r.state, [], [], []⟩ := by
      unfold storeTx
      rw [hq2]
      rfl
    rw [hempty]
    exact ⟨rfl, rfl⟩
  · have hacc := @txFold_nowrite r.state.mailbox c (queryRows r.state c)
      ⟨r.state.messages, none, [], [], []⟩ hA
    rw [show (queryRows r.state c).foldl (txStep r.state.mailbox c)
      ⟨r.state.messages, none, [], [], []⟩ = txAcc r.state c from rfl] at hacc
    cases hv2 : vocabNew r.state c with
    | error e =>
      have herr : storeTx r.state c = .error e := by
        unfold storeTx
        rw [if_neg (by simpa [List.isEmpty_iff] using hq2), hv2]
      rw [herr]
      exact ⟨rfl, rfl⟩
    | ok nf2 =>
      have hok2 : storeTx r.state c = .ok
          ⟨⟨mailboxAfter r.state.mailbox (txAcc r.state c).newModseq nf2,
            (txAcc r.state c).rows⟩,
          (txAcc r.state c).modified, (txAcc r.state c).writeStream,
          (txAcc r.state c).entries⟩ := by
        unfold storeTx
        rw [if_neg (by simpa [List.isEmpty_iff] using hq2), hv2]
      rw [hok2]
      refine ⟨hacc.1, ?_⟩
      show (mailboxAfter r.state.mailbox (txAcc r.state c).newModseq
        nf2).modifyIndex = r.state.mailbox.modifyIndex
      rw [hacc.2.1]
      unfold mailboxAfter
      split <;> simp

/-- Witness instantiating C7: re-running the add of \Seen on the state
committed by its first run. -/
theorem add_idempotent_second_run_witness :
    (∀ m ∈ queryRows ((storeTx exState exCtx).toOption.getD
        ⟨exState, [], [], []⟩).state exCtx, ∀ nf st,
      processMessage ((storeTx exState exCtx).toOption.getD
        ⟨exState, [], [], []⟩).state.mailbox exCtx m ≠ .write nf st) ∧
    (commitState ((storeTx exState exCtx).toOption.getD
        ⟨exState, [], [], []⟩).state
      (storeTx ((storeTx exState exCtx).toOption.getD
        ⟨exState, [], [], []⟩).state exCtx)).messages =
      ((storeTx exState exCtx).toOption.getD
        ⟨exState, [], [], []⟩).state.messages ∧
    (commitState ((storeTx exState exCtx).toOption.getD
        ⟨exState, [], [], []⟩).state
      (storeTx ((storeTx exState exCtx).toOption.getD
        ⟨exState, [], [], []⟩).state exCtx)).mailbox.modifyIndex =
      ((storeTx exState exCtx).toOption.getD
        ⟨exState, [], [], []⟩).state.mailbox.modifyIndex :=
  add_idempotent_second_run (s := exState) (c := exCtx)
    (r := (storeTx exState exCtx).toOption.getD ⟨exState, [], [], []⟩)
    (by decide) (by decide) (by rfl)

end OnStore
